import Mathlib

/-!
Verification of the basic-docker-engine container runtime and image
subsystem.  The Go source is shallowly embedded: directory trees are
finite association maps from paths to entries, `filepath.Walk`
enumerations are lists of path/entry pairs, fallible file operations
return `Except`, and registry/process interaction is abstracted into
explicit environment records whose fields answer exactly the queries the
code makes.
-/

namespace BasicDocker

/-! ## Layer store: `copyDir` and `mountLayeredFilesystem` (main.go)

A path is the list of its components relative to the filesystem root in
question.  A filesystem state maps paths to entries; the newest binding
is kept at the front, so `lookupFS` finds the most recent write.
-/

/-- Entry of a directory tree: a regular file with its content, or a
directory. -/
inductive Entry where
  | file (content : String)
  | dir
deriving DecidableEq, Repr

/-- Relative path, as its list of components. -/
abbrev FPath := List String

/-- Filesystem state: association list from paths to entries, newest
binding first. -/
abbrev FS := List (FPath × Entry)

/-- A layer, represented by its `filepath.Walk` enumeration: the list of
path/entry pairs the walk visits, parents before children (the walk root
itself appears as the empty path, which `copyDir` skips). -/
abbrev Layer := List (FPath × Entry)

/-- Lookup of a path in a filesystem state (first, i.e. newest, binding
wins). -/
def lookupFS (fs : FS) (p : FPath) : Option Entry :=
  match fs with
  | [] => none
  | (q, e) :: rest => if q = p then some e else lookupFS rest p

/-- Record a binding; shadows any older binding of the same path. -/
def setFS (fs : FS) (p : FPath) (e : Entry) : FS :=
  (p, e) :: fs

/-- The chain of directories `os.MkdirAll(p)` creates, shortest first;
its last element is `p` itself. -/
def pathChain (p : FPath) : List FPath :=
  (List.range p.length).map (fun n => p.take (n + 1))

/-- One `os.MkdirAll` step per path of the chain: an existing directory
is kept, a missing one is created, and a path already taken by a regular
file makes the whole call fail (ENOTDIR). -/
def mkdirSteps (fs : FS) : List FPath → Except String FS
  | [] => .ok fs
  | q :: qs =>
    match lookupFS fs q with
    | some (Entry.file _) => .error "mkdir: not a directory"
    | some Entry.dir => mkdirSteps fs qs
    | none => mkdirSteps (setFS fs q Entry.dir) qs

/-- `os.MkdirAll(p)`: create every missing directory along `p`. -/
def mkdirAll (fs : FS) (p : FPath) : Except String FS :=
  mkdirSteps fs (pathChain p)

/-- Whether the parent directory of `p` exists (the root always does). -/
def parentOk (fs : FS) (p : FPath) : Bool :=
  match p.dropLast with
  | [] => true
  | q =>
    match lookupFS fs q with
    | some Entry.dir => true
    | _ => false

/-- `copyFile` / `os.WriteFile`: overwrite or create the file at `p`;
fails if `p` is an existing directory (EISDIR) or its parent directory
is missing (ENOENT). -/
def writeFile (fs : FS) (p : FPath) (c : String) : Except String FS :=
  match lookupFS fs p with
  | some Entry.dir => .error "write: is a directory"
  | _ =>
    if parentOk fs p then .ok (setFS fs p (Entry.file c))
    else .error "write: no such directory"

/-- Body of the `filepath.Walk` callback in `copyDir`: the walk root
(relative path ".") is skipped, directories are re-created with
`os.MkdirAll`, files are copied with `copyFile`. -/
def copyDirStep (fs : FS) : FPath × Entry → Except String FS
  | ([], _) => .ok fs
  | (p, Entry.dir) => mkdirAll fs p
  | (p, Entry.file c) => writeFile fs p c

/-- `copyDir(src, dst)`: fold the walk callback over the enumeration of
the source tree. -/
def copyDir (es : Layer) (fs : FS) : Except String FS :=
  match es with
  | [] => .ok fs
  | pe :: rest =>
    match copyDirStep fs pe with
    | .error m => .error m
    | .ok fs1 => copyDir rest fs1

/-- The loop of `mountLayeredFilesystem`: for each layer id in order,
look the layer up in the layer store (a missing layer directory makes
`filepath.Walk` fail) and copy it on top of the accumulated rootfs. -/
def applyLayers (store : String → Option Layer) : List String → FS → Except String FS
  | [], fs => .ok fs
  | id :: rest, fs =>
    match store id with
    | none => .error "apply layer: walk failed"
    | some es =>
      match copyDir es fs with
      | .error m => .error m
      | .ok fs1 => applyLayers store rest fs1

/-- `mountLayeredFilesystem(layers, rootfs)`: `os.RemoveAll` +
`os.MkdirAll` clear the target to an empty directory (whatever it held
before), then the layers are applied in order. -/
def mountLayeredFilesystem (store : String → Option Layer) (layers : List String)
    (targetBefore : FS) : Except String FS :=
  applyLayers store layers []

/-- Lookup of a path among the walk entries of a layer. -/
def layerLookup (es : Layer) (p : FPath) : Option Entry :=
  lookupFS es p

/-- Content of the highest-indexed layer of the list that defines a
path: later layers take precedence. -/
def lastWriter (store : String → Option Layer) : List String → FPath → Option Entry
  | [], _ => none
  | id :: rest, p =>
    match lastWriter store rest p with
    | some e => some e
    | none =>
      match store id with
      | none => none
      | some es => layerLookup es p

/-- What `filepath.Walk` guarantees about the enumeration of a real
directory tree: each path is visited once, visited paths are below the
root (non-empty), and every strict ancestor of a visited path is itself
visited as a directory. -/
def WfLayer (es : Layer) : Prop :=
  (es.map Prod.fst).Nodup ∧
  ∀ pe ∈ es, pe.1 ≠ [] ∧ ∀ q ∈ pathChain pe.1, q ≠ pe.1 → (q, Entry.dir) ∈ es

/-! ## Container status (main.go, `getContainerStatus`) -/

/-- The two `errno` values `getContainerStatus` distinguishes after
`syscall.Kill(pid, 0)`. -/
inductive Errno where
  | esrch
  | eperm
  | other
deriving DecidableEq, Repr

/-- Model of `strings.TrimSpace`: drop whitespace from both ends. -/
def trimSpace (s : String) : String :=
  ⟨((s.data.dropWhile Char.isWhitespace).reverse.dropWhile Char.isWhitespace).reverse⟩

/-- Value of a non-empty all-digit character list, in base 10. -/
def digitsVal (cs : List Char) : Option Nat :=
  if cs = [] then none
  else if cs.all Char.isDigit then
    some (cs.foldl (fun n c => 10 * n + (c.toNat - '0'.toNat)) 0)
  else none

/-- Model of `strconv.Atoi` as used by `atoi`: optional sign followed by
decimal digits; anything else is an error (the 64-bit overflow error of
the real function is not modelled). -/
def atoiM (s : String) : Option Int :=
  match s.data with
  | '+' :: cs => (digitsVal cs).map (fun n => (n : Int))
  | '-' :: cs => (digitsVal cs).map (fun n => -(n : Int))
  | cs => (digitsVal cs).map (fun n => (n : Int))

/-- Environment observed by `getContainerStatus`: the result of reading
the per-container PID file, whether `os.Stat` on a path reports
not-exist, and the error of `syscall.Kill(pid, 0)` (`none` = success). -/
structure StatusEnv where
  readPidFile : Option String
  statNotExist : String → Bool
  kill0 : Int → Option Errno

/-- `getContainerStatus`: "Stopped" if the PID file cannot be read, the
`/proc` entry is missing, or signal 0 reports ESRCH; otherwise
"Running".  `none` models the `os.Exit(1)` that `atoi` performs on a
non-numeric PID file. -/
def getContainerStatus (env : StatusEnv) : Option String :=
  match env.readPidFile with
  | none => some "Stopped"
  | some data =>
    let pid := trimSpace data
    if env.statNotExist ("/proc/" ++ pid) then some "Stopped"
    else
      match atoiM pid with
      | none => none
      | some n =>
        match env.kill0 n with
        | some e => if e = Errno.esrch then some "Stopped" else some "Running"
        | none => some "Running"

/-! ## Isolation-tier selection (`run`, part_006 variant) -/

/-- The two launch paths `run` dispatches to. -/
inductive IsolationPath where
  | fullNamespaces
  | withoutNamespaces
deriving DecidableEq, Repr

/-- The dispatch at the end of `run`:
`if hasNamespacePrivileges && !inContainer` the namespaced runner is
used, otherwise the plain runner.  `hasCgroupAccess` is received but
does not influence the choice. -/
def selectIsolation (hasNamespacePrivileges inContainer hasCgroupAccess : Bool) :
    IsolationPath :=
  if hasNamespacePrivileges && !inContainer then IsolationPath.fullNamespaces
  else IsolationPath.withoutNamespaces

/-! ## PID recording in `run` (part_006 variant) -/

/-- Inputs of the PID-file phase of `run`: the own pid of the engine
(`os.Getpid()`), the pid the contained child process will receive, and
whether the `os.WriteFile` of the PID file succeeds. -/
structure RunEnv where
  selfPid : Nat
  childPid : Nat
  pidWriteOk : Bool
deriving DecidableEq, Repr

/-- Observable events of the PID-file phase of `run`. -/
inductive RunEvent where
  | writePidFile (pid : Nat)
  | startChild (pid : Nat)
  | waitChild (pid : Nat)
  | exitProcess (code : Nat)
deriving DecidableEq, Repr

/-- The PID-file phase of `run`: write `os.Getpid()` to the
per-container PID file; on failure print and `os.Exit(1)`; on success
start the contained process (`cmd.Run()` starts it and then waits). -/
def runPidPhase (env : RunEnv) : List RunEvent :=
  if env.pidWriteOk then
    [RunEvent.writePidFile env.selfPid, RunEvent.startChild env.childPid,
     RunEvent.waitChild env.childPid]
  else
    [RunEvent.writePidFile env.selfPid, RunEvent.exitProcess 1]

/-! ## `exec` (main.go, `execCommand`) -/

/-- Environment observed by `execCommand` for one container id: whether
the container directory exists, the result of reading its PID file, and
whether `os.Stat` on a path reports not-exist. -/
structure ExecEnv where
  containerDirExists : Bool
  readPidFile : Option String
  statNotExist : String → Bool

/-- Result of `execCommand`: a fatal error message (followed by
`os.Exit(1)`), or an `nsenter` invocation entering the given mount and
PID namespaces to run the command. -/
inductive ExecResult where
  | fatal (msg : String)
  | nsenterRun (mountNs pidNs command : String) (args : List String)
deriving DecidableEq, Repr

/-- `execCommand`: check the container directory, read the PID file,
check `/proc/<pid>`, and only then execute the command through
`nsenter --mount=/proc/<pid>/ns/mnt --pid=/proc/<pid>/ns/pid`. -/
def execCommand (env : ExecEnv) (command : String) (args : List String) : ExecResult :=
  if !env.containerDirExists then
    ExecResult.fatal "container does not exist"
  else
    match env.readPidFile with
    | none => ExecResult.fatal "failed to read PID file"
    | some data =>
      let pid := trimSpace data
      if env.statNotExist ("/proc/" ++ pid) then
        ExecResult.fatal "process does not exist"
      else
        ExecResult.nsenterRun ("/proc/" ++ pid ++ "/ns/mnt")
          ("/proc/" ++ pid ++ "/ns/pid") command args

/-! ## Registry pull and image resolution (image.go `Pull`, main.go `run`) -/

/-- Image value returned by `Pull`: name, materialized rootfs path, and
the layer id list the code stores in it. -/
structure Image where
  Name : String
  RootFS : String
  Layers : List String
deriving DecidableEq, Repr

/-- Manifest: the config blob digest and the ordered layer blob
digests. -/
structure Manifest where
  configDigest : String
  layerDigests : List String
deriving DecidableEq, Repr

/-- A fetched layer blob: the file entries its tar stream holds, and
whether `tar -x` succeeds on it. -/
structure TarBlob where
  entries : List (String × String)
  extractOk : Bool
deriving DecidableEq, Repr

/-- Abstract registry: `FetchManifest` and `FetchLayer`, both keyed by
repository; `none` models a failed HTTP fetch. -/
structure RegistryFuncs where
  fetchManifest : String → String → Option Manifest
  fetchLayer : String → String → Option TarBlob

/-- On-disk image store: for each image name, `none` when
`<images>/<name>/rootfs` does not exist, else the rootfs file entries
(newest first, so an association-list lookup sees the last write). -/
abbrev ImagesDisk := String → Option (List (String × String))

/-- Registry calls a pull performs, in order. -/
inductive RegEvent where
  | fetchManifestEv (repo tag : String)
  | fetchLayerEv (repo digest : String)
deriving DecidableEq, Repr

/-- The image store root used throughout the source. -/
def imagesRoot : String := "/tmp/basic-docker/images"

/-- `filepath.Join(imagesDir, name, "rootfs")`. -/
def rootfsPathOf (name : String) : String :=
  imagesRoot ++ "/" ++ name ++ "/rootfs"

/-- Split a character list at each occurrence of `sep`, as
`strings.Split` does (never returns an empty list). -/
def splitOnChar (sep : Char) : List Char → List (List Char)
  | [] => [[]]
  | c :: cs =>
    let rest := splitOnChar sep cs
    if c = sep then [] :: rest
    else
      match rest with
      | [] => [[c]]
      | h :: t => (c :: h) :: t

/-- The repository/tag parse at the top of `Pull`:
`parts := strings.Split(name, ":")`, repository `parts[0]`, tag
`parts[1]` when present and `"latest"` otherwise. -/
def parseRepoTag (name : String) : String × String :=
  match splitOnChar ':' name.data with
  | [] => (⟨[]⟩, "latest")
  | [r] => (⟨r⟩, "latest")
  | r :: t :: _ => (⟨r⟩, ⟨t⟩)

/-- Split an image reference at the first `/`, as
`strings.SplitN(imageName, "/", 2)` does: `none` when there is no
slash. -/
def breakSlash : List Char → Option (List Char × List Char)
  | [] => none
  | c :: cs =>
    if c = '/' then some ([], cs)
    else (breakSlash cs).map (fun pr => (c :: pr.1, pr.2))

/-- The repository `run` passes to `Pull`: the part after the registry
host when the reference has one, else the whole reference. -/
def repoOf (imageName : String) : String :=
  match breakSlash imageName.data with
  | none => imageName
  | some pr => ⟨pr.2⟩

/-- `extractLayer` applied to the entries of one tar stream: each entry
is written into the rootfs, later entries shadowing earlier files. -/
def extractEntries (rootfs : List (String × String)) (es : List (String × String)) :
    List (String × String) :=
  es.foldl (fun acc e => e :: acc) rootfs

/-- Outcome of the layer loop of `Pull`: the error (if any), the rootfs
content left on disk, and the layer fetches performed. -/
structure PullLayersResult where
  err : Option String
  files : List (String × String)
  trace : List RegEvent
deriving Repr

/-- The layer loop of `Pull`: for each digest in manifest order, fetch
the blob and extract it into the rootfs; the first failure aborts the
loop, keeping whatever was already extracted on disk. -/
def pullLayersGo (reg : RegistryFuncs) (repo : String) :
    List String → List (String × String) → PullLayersResult
  | [], files => ⟨none, files, []⟩
  | d :: ds, files =>
    match reg.fetchLayer repo d with
    | none => ⟨some ("failed to download layer " ++ d), files, [RegEvent.fetchLayerEv repo d]⟩
    | some blob =>
      if blob.extractOk then
        let r := pullLayersGo reg repo ds (extractEntries files blob.entries)
        ⟨r.err, r.files, RegEvent.fetchLayerEv repo d :: r.trace⟩
      else ⟨some ("failed to extract layer " ++ d), files, [RegEvent.fetchLayerEv repo d]⟩

/-- Result of `Pull`: the returned value, the image store afterwards,
and the registry calls made. -/
structure PullResult where
  result : Except String Image
  disk : ImagesDisk
  trace : List RegEvent

/-- `Pull(registry, name)`: parse repository and tag, fetch the
manifest, `os.MkdirAll` the image rootfs (keeping any existing
content), run the layer loop, and on success return an `Image` whose
layer list is the literal `[]string{"base"}` of the source. -/
def Pull (reg : RegistryFuncs) (name : String) (disk : ImagesDisk) : PullResult :=
  let rt := parseRepoTag name
  match reg.fetchManifest rt.1 rt.2 with
  | none => ⟨.error "failed to fetch manifest", disk, [RegEvent.fetchManifestEv rt.1 rt.2]⟩
  | some m =>
    let files0 := (disk name).getD []
    let r := pullLayersGo reg rt.1 m.layerDigests files0
    let disk1 : ImagesDisk := fun n => if n = name then some r.files else disk n
    match r.err with
    | some e => ⟨.error e, disk1, RegEvent.fetchManifestEv rt.1 rt.2 :: r.trace⟩
    | none =>
      ⟨.ok ⟨name, rootfsPathOf name, ["base"]⟩, disk1,
        RegEvent.fetchManifestEv rt.1 rt.2 :: r.trace⟩

/-- Result of the image-resolution step of `run`: the rootfs path used
for the container (or the fatal pull error), the image store afterwards,
and the registry calls made. -/
structure ResolveResult where
  result : Except String String
  disk : ImagesDisk
  trace : List RegEvent

/-- The image-resolution step of `run`: if `os.Stat` on
`<images>/<name>/rootfs` succeeds the local image is used as-is with no
registry traffic; otherwise the reference is pulled (through
`repoOf`, after the `SplitN` on `/`) and the pulled rootfs path is
used. -/
def resolveImage (reg : RegistryFuncs) (disk : ImagesDisk) (imageName : String) :
    ResolveResult :=
  match disk imageName with
  | some _ => ⟨.ok (rootfsPathOf imageName), disk, []⟩
  | none =>
    let pr := Pull reg (repoOf imageName) disk
    match pr.result with
    | .error e => ⟨.error e, pr.disk, pr.trace⟩
    | .ok img => ⟨.ok img.RootFS, pr.disk, pr.trace⟩

/-! ## Control groups (main.go, `setupCgroups` and `runWithNamespaces`) -/

/-- Filesystem actions `setupCgroups` performs. -/
inductive CgAct where
  | mkdirAllAct (path : String)
  | writeAct (path value : String)
deriving DecidableEq, Repr

/-- The per-container cgroup directory. -/
def cgroupPathOf (containerID : String) : String :=
  "/sys/fs/cgroup/memory/basic-docker/" ++ containerID

/-- `setupCgroups(containerID, memoryLimit)`: return `nil` immediately
when cgroup access is unavailable; otherwise create the cgroup
directory, write the memory limit, and write `os.Getpid()` — the
own pid of the engine — into `cgroup.procs` (failures of the individual
filesystem writes are not modelled). -/
def setupCgroups (hasCgroupAccess : Bool) (selfPid : Nat) (containerID : String)
    (memoryLimit : Nat) : Except String (List CgAct) :=
  if !hasCgroupAccess then .ok []
  else
    .ok [CgAct.mkdirAllAct (cgroupPathOf containerID),
      CgAct.writeAct (cgroupPathOf containerID ++ "/memory.limit_in_bytes")
        (toString memoryLimit),
      CgAct.writeAct (cgroupPathOf containerID ++ "/cgroup.procs") (toString selfPid)]

/-- Observable events of `runWithNamespaces`: cgroup filesystem actions
followed by the start of the user command in the new namespaces. -/
inductive NsEvent where
  | cg (a : CgAct)
  | runUserCommand (childPid : Nat)
deriving DecidableEq, Repr

/-- `runWithNamespaces`: `if hasCgroupAccess` run
`setupCgroups(containerID, 100*1024*1024)`, then `cmd.Run()` the user
command (which receives `childPid`). -/
def runWithNamespacesTrace (hasCgroupAccess : Bool) (selfPid childPid : Nat)
    (containerID : String) : List NsEvent :=
  (if hasCgroupAccess then
    match setupCgroups hasCgroupAccess selfPid containerID (100 * 1024 * 1024) with
    | .ok acts => acts.map NsEvent.cg
    | .error _ => []
  else []) ++ [NsEvent.runUserCommand childPid]

/-! ## Lemmas about the layer store -/

instance (es : Layer) : Decidable (WfLayer es) := by
  unfold WfLayer
  infer_instance

theorem lookupFS_set_self (fs : FS) (p : FPath) (e : Entry) :
    lookupFS (setFS fs p e) p = some e := by
  simp [setFS, lookupFS]

theorem lookupFS_set_other (fs : FS) (p q : FPath) (e : Entry) (h : q ≠ p) :
    lookupFS (setFS fs p e) q = lookupFS fs q := by
  simp only [setFS, lookupFS]
  rw [if_neg (fun hh => h (Eq.symm hh))]

theorem lookupFS_ne_none_of_mem {fs : FS} {p : FPath} {e : Entry} (h : (p, e) ∈ fs) :
    lookupFS fs p ≠ none := by
  induction fs with
  | nil => cases h
  | cons qe rest ih =>
    obtain ⟨q, e'⟩ := qe
    by_cases hq : q = p
    · simp [lookupFS, hq]
    · rcases List.mem_cons.mp h with heq | hmem
      · cases heq; exact absurd rfl hq
      · simp only [lookupFS, if_neg hq]
        exact ih hmem

theorem mkdirSteps_keeps {qs : List FPath} {fs fs' : FS} {q : FPath} {e : Entry}
    (hq : lookupFS fs q = some e) (h : mkdirSteps fs qs = .ok fs') :
    lookupFS fs' q = some e := by
  induction qs generalizing fs with
  | nil =>
    simp only [mkdirSteps, Except.ok.injEq] at h
    exact h ▸ hq
  | cons r qs ih =>
    cases hl : lookupFS fs r with
    | none =>
      simp only [mkdirSteps, hl] at h
      have hne : q ≠ r := fun hh => by rw [hh, hl] at hq; cases hq
      exact ih (by rw [lookupFS_set_other _ _ _ _ hne]; exact hq) h
    | some e' =>
      cases e' with
      | dir =>
        simp only [mkdirSteps, hl] at h
        exact ih hq h
      | file c =>
        simp only [mkdirSteps, hl] at h
        exact Except.noConfusion h

theorem mkdirSteps_frame {qs : List FPath} {fs fs' : FS} {q : FPath}
    (hq : q ∉ qs) (h : mkdirSteps fs qs = .ok fs') :
    lookupFS fs' q = lookupFS fs q := by
  induction qs generalizing fs with
  | nil =>
    simp only [mkdirSteps, Except.ok.injEq] at h
    exact h ▸ rfl
  | cons r qs ih =>
    have hqr : q ≠ r := fun hh => hq (hh ▸ List.mem_cons_self r qs)
    have hq' : q ∉ qs := fun hh => hq (List.mem_cons_of_mem r hh)
    cases hl : lookupFS fs r with
    | none =>
      simp only [mkdirSteps, hl] at h
      rw [ih hq' h, lookupFS_set_other _ _ _ _ hqr]
    | some e' =>
      cases e' with
      | dir =>
        simp only [mkdirSteps, hl] at h
        exact ih hq' h
      | file c =>
        simp only [mkdirSteps, hl] at h
        exact Except.noConfusion h

theorem mkdirSteps_all {qs : List FPath} {fs fs' : FS}
    (h : mkdirSteps fs qs = .ok fs') :
    ∀ q ∈ qs, lookupFS fs' q = some Entry.dir := by
  induction qs generalizing fs with
  | nil => intro q hq; cases hq
  | cons r qs ih =>
    intro q hq
    cases hl : lookupFS fs r with
    | none =>
      simp only [mkdirSteps, hl] at h
      rcases List.mem_cons.mp hq with heq | hmem
      · exact heq ▸ mkdirSteps_keeps (lookupFS_set_self fs r Entry.dir) h
      · exact ih h q hmem
    | some e' =>
      cases e' with
      | dir =>
        simp only [mkdirSteps, hl] at h
        rcases List.mem_cons.mp hq with heq | hmem
        · exact heq ▸ mkdirSteps_keeps hl h
        · exact ih h q hmem
      | file c =>
        simp only [mkdirSteps, hl] at h
        exact Except.noConfusion h

theorem self_mem_pathChain {p : FPath} (hp : p ≠ []) : p ∈ pathChain p := by
  have hl : 0 < p.length := List.length_pos.mpr hp
  refine List.mem_map.mpr ⟨p.length - 1, List.mem_range.mpr ?_, ?_⟩
  · omega
  · rw [Nat.sub_add_cancel hl, List.take_length]

theorem mkdirAll_sets {fs fs' : FS} {p : FPath} (hp : p ≠ [])
    (h : mkdirAll fs p = .ok fs') : lookupFS fs' p = some Entry.dir :=
  mkdirSteps_all h p (self_mem_pathChain hp)

theorem writeFile_self {fs fs' : FS} {p : FPath} {c : String}
    (h : writeFile fs p c = .ok fs') : lookupFS fs' p = some (Entry.file c) := by
  unfold writeFile at h
  cases hl : lookupFS fs p with
  | none =>
    rw [hl] at h
    cases hpo : parentOk fs p <;> rw [hpo] at h <;> simp at h
    exact h ▸ lookupFS_set_self fs p (Entry.file c)
  | some e' =>
    cases e' with
    | dir => rw [hl] at h; cases h
    | file c0 =>
      rw [hl] at h
      cases hpo : parentOk fs p <;> rw [hpo] at h <;> simp at h
      exact h ▸ lookupFS_set_self fs p (Entry.file c)

theorem writeFile_frame {fs fs' : FS} {p q : FPath} {c : String} (hq : q ≠ p)
    (h : writeFile fs p c = .ok fs') : lookupFS fs' q = lookupFS fs q := by
  unfold writeFile at h
  cases hl : lookupFS fs p with
  | none =>
    rw [hl] at h
    cases hpo : parentOk fs p <;> rw [hpo] at h <;> simp at h
    rw [← h, lookupFS_set_other _ _ _ _ hq]
  | some e' =>
    cases e' with
    | dir => rw [hl] at h; cases h
    | file c0 =>
      rw [hl] at h
      cases hpo : parentOk fs p <;> rw [hpo] at h <;> simp at h
      rw [← h, lookupFS_set_other _ _ _ _ hq]

theorem writeFile_not_dir {fs fs' : FS} {p : FPath} {c : String}
    (h : writeFile fs p c = .ok fs') (hd : lookupFS fs p = some Entry.dir) : False := by
  unfold writeFile at h
  rw [hd] at h
  cases h

theorem copyDirStep_keeps_dir {fs fs1 : FS} {pe : FPath × Entry} {q : FPath}
    (h0 : lookupFS fs q = some Entry.dir) (h : copyDirStep fs pe = .ok fs1) :
    lookupFS fs1 q = some Entry.dir := by
  obtain ⟨p, e⟩ := pe
  cases p with
  | nil =>
    simp only [copyDirStep, Except.ok.injEq] at h
    exact h ▸ h0
  | cons a p' =>
    cases e with
    | dir => exact mkdirSteps_keeps h0 h
    | file c =>
      by_cases hqp : q = a :: p'
      · exact absurd (hqp ▸ h0) (fun hh => writeFile_not_dir h hh)
      · rw [writeFile_frame hqp h]; exact h0

theorem copyDir_keeps_dir {es : Layer} {fs fs' : FS} {q : FPath}
    (h0 : lookupFS fs q = some Entry.dir) (h : copyDir es fs = .ok fs') :
    lookupFS fs' q = some Entry.dir := by
  induction es generalizing fs with
  | nil =>
    simp only [copyDir, Except.ok.injEq] at h
    exact h ▸ h0
  | cons pe rest ih =>
    cases hs : copyDirStep fs pe with
    | error m =>
      simp only [copyDir, hs] at h
      exact Except.noConfusion h
    | ok fs1 =>
      simp only [copyDir, hs] at h
      exact ih (copyDirStep_keeps_dir h0 hs) h

theorem copyDir_frame {es : Layer} {fs fs' : FS} {q : FPath}
    (hq : ∀ pe ∈ es, q ∉ pathChain pe.1) (h : copyDir es fs = .ok fs') :
    lookupFS fs' q = lookupFS fs q := by
  induction es generalizing fs with
  | nil =>
    simp only [copyDir, Except.ok.injEq] at h
    exact h ▸ rfl
  | cons pe rest ih =>
    cases hs : copyDirStep fs pe with
    | error m =>
      simp only [copyDir, hs] at h
      exact Except.noConfusion h
    | ok fs1 =>
      simp only [copyDir, hs] at h
      have htail : ∀ pe' ∈ rest, q ∉ pathChain pe'.1 :=
        fun pe' hm => hq pe' (List.mem_cons_of_mem pe hm)
      rw [ih htail h]
      obtain ⟨p, e⟩ := pe
      cases p with
      | nil =>
        simp only [copyDirStep, Except.ok.injEq] at hs
        exact hs ▸ rfl
      | cons a p' =>
        have hhead := hq (a :: p', e) (List.mem_cons_self _ rest)
        cases e with
        | dir => exact mkdirSteps_frame hhead hs
        | file c =>
          have hmem : (a :: p') ∈ pathChain (a :: p') :=
            self_mem_pathChain (List.cons_ne_nil a p')
          have hne : q ≠ a :: p' := fun hh => hhead (by rw [hh]; exact hmem)
          exact writeFile_frame hne hs

theorem copyDir_sets_aux :
    ∀ (es : Layer) (fs fs' : FS) (p : FPath) (e : Entry),
    layerLookup es p = some e →
    (es.map Prod.fst).Nodup →
    (∀ pe ∈ es, pe.1 ≠ []) →
    (∀ pe ∈ es, ∀ q ∈ pathChain pe.1, q ≠ pe.1 →
        (q, Entry.dir) ∈ es ∨ lookupFS fs q = some Entry.dir) →
    copyDir es fs = .ok fs' →
    lookupFS fs' p = some e := by
  intro es
  induction es with
  | nil => intro fs fs' p e hdef; simp [layerLookup, lookupFS] at hdef
  | cons pe rest ih =>
    intro fs fs' p e hdef hnd hne hcl h
    obtain ⟨r, e'⟩ := pe
    cases hs : copyDirStep fs (r, e') with
    | error m =>
      simp only [copyDir, hs] at h
      exact Except.noConfusion h
    | ok fs1 =>
      simp only [copyDir, hs] at h
      have hr : r ≠ [] := hne (r, e') (List.mem_cons_self _ rest)
      have hndh : r ∉ rest.map Prod.fst ∧ (rest.map Prod.fst).Nodup := by
        rw [List.map_cons] at hnd
        exact List.nodup_cons.mp hnd
      by_cases hrp : r = p
      · subst hrp
        have he : e' = e := by
          simp [layerLookup, lookupFS] at hdef
          exact hdef
        cases r with
        | nil => exact absurd rfl hr
        | cons a r0 =>
          cases e' with
          | dir =>
            rw [← he]
            have h1 : lookupFS fs1 (a :: r0) = some Entry.dir :=
              mkdirAll_sets (List.cons_ne_nil a r0) hs
            exact copyDir_keeps_dir h1 h
          | file c =>
            rw [← he]
            have h1 : lookupFS fs1 (a :: r0) = some (Entry.file c) := writeFile_self hs
            have hfr : ∀ pe' ∈ rest, (a :: r0) ∉ pathChain pe'.1 := by
              intro pe' hmem hchain
              by_cases hp1 : a :: r0 = pe'.1
              · exact hndh.1 (List.mem_map.mpr ⟨pe', hmem, hp1.symm⟩)
              · rcases hcl pe' (List.mem_cons_of_mem _ hmem) (a :: r0) hchain hp1 with
                  hin | hfsq
                · rcases List.mem_cons.mp hin with heq | hin'
                  · exact Entry.noConfusion (congrArg Prod.snd heq)
                  · exact hndh.1 (List.mem_map.mpr ⟨(a :: r0, Entry.dir), hin', rfl⟩)
                · exact writeFile_not_dir hs hfsq
            rw [copyDir_frame hfr h]
            exact h1
      · have hdef' : layerLookup rest p = some e := by
          simp only [layerLookup, lookupFS, if_neg hrp] at hdef
          exact hdef
        refine ih fs1 fs' p e hdef' hndh.2
          (fun pe' hm => hne pe' (List.mem_cons_of_mem _ hm)) ?_ h
        intro pe' hmem q hq hqe
        rcases hcl pe' (List.mem_cons_of_mem _ hmem) q hq hqe with hin | hfsq
        · rcases List.mem_cons.mp hin with heq | hin'
          · right
            have hqr : q = r := congrArg Prod.fst heq
            have he' : Entry.dir = e' := congrArg Prod.snd heq
            rw [hqr]
            cases hr0 : r with
            | nil => exact absurd hr0 hr
            | cons a r0 =>
              rw [hr0] at hs
              rw [← he'] at hs
              exact mkdirAll_sets (List.cons_ne_nil a r0) hs
          · exact Or.inl hin'
        · exact Or.inr (copyDirStep_keeps_dir hfsq hs)

theorem copyDir_sets {es : Layer} {fs fs' : FS} {p : FPath} {e : Entry}
    (hwf : WfLayer es) (hdef : layerLookup es p = some e)
    (h : copyDir es fs = .ok fs') : lookupFS fs' p = some e :=
  copyDir_sets_aux es fs fs' p e hdef hwf.1 (fun pe hm => (hwf.2 pe hm).1)
    (fun pe hm q hq hqe => Or.inl ((hwf.2 pe hm).2 q hq hqe)) h

theorem copyDir_undef_frame {es : Layer} {fs fs' : FS} {p : FPath}
    (hwf : WfLayer es) (hundef : layerLookup es p = none)
    (h : copyDir es fs = .ok fs') :
    lookupFS fs' p = lookupFS fs p := by
  refine copyDir_frame ?_ h
  intro pe hpe hchain
  by_cases hp1 : p = pe.1
  · exact lookupFS_ne_none_of_mem (show (p, pe.2) ∈ es by rw [hp1]; exact hpe) hundef
  · exact lookupFS_ne_none_of_mem ((hwf.2 pe hpe).2 p hchain hp1) hundef

theorem applyLayers_undef {store : String → Option Layer} {L : List String}
    {fs fs' : FS} {p : FPath}
    (hst : ∀ id ∈ L, ∀ es, store id = some es → WfLayer es)
    (hundef : lastWriter store L p = none)
    (h : applyLayers store L fs = .ok fs') :
    lookupFS fs' p = lookupFS fs p := by
  induction L generalizing fs with
  | nil =>
    simp only [applyLayers, Except.ok.injEq] at h
    exact h ▸ rfl
  | cons id L ih =>
    cases hd : store id with
    | none =>
      simp only [applyLayers, hd] at h
      exact Except.noConfusion h
    | some es =>
      cases hc : copyDir es fs with
      | error m =>
        simp only [applyLayers, hd, hc] at h
        exact Except.noConfusion h
      | ok fs1 =>
        simp only [applyLayers, hd, hc] at h
        have hu : lastWriter store L p = none ∧ layerLookup es p = none := by
          cases hlw : lastWriter store L p with
          | some e =>
            simp only [lastWriter, hlw] at hundef
            exact Option.noConfusion hundef
          | none =>
            simp only [lastWriter, hlw, hd] at hundef
            exact ⟨rfl, hundef⟩
        rw [ih (fun i hi => hst i (List.mem_cons_of_mem id hi)) hu.1 h]
        exact copyDir_undef_frame (hst id (List.mem_cons_self id L) es hd) hu.2 hc

theorem applyLayers_lastWriter {store : String → Option Layer} {L : List String}
    {fs fs' : FS} {p : FPath} {e : Entry}
    (hst : ∀ id ∈ L, ∀ es, store id = some es → WfLayer es)
    (hdef : lastWriter store L p = some e)
    (h : applyLayers store L fs = .ok fs') :
    lookupFS fs' p = some e := by
  induction L generalizing fs with
  | nil => simp [lastWriter] at hdef
  | cons id L ih =>
    cases hd : store id with
    | none =>
      simp only [applyLayers, hd] at h
      exact Except.noConfusion h
    | some es =>
      cases hc : copyDir es fs with
      | error m =>
        simp only [applyLayers, hd, hc] at h
        exact Except.noConfusion h
      | ok fs1 =>
        simp only [applyLayers, hd, hc] at h
        cases hlw : lastWriter store L p with
        | some e2 =>
          have he2 : e2 = e := by
            simp only [lastWriter, hlw, Option.some.injEq] at hdef
            exact hdef
          exact ih (fun i hi => hst i (List.mem_cons_of_mem id hi)) (he2 ▸ hlw) h
        | none =>
          have hle : layerLookup es p = some e := by
            simp only [lastWriter, hlw, hd] at hdef
            exact hdef
          rw [applyLayers_undef (fun i hi => hst i (List.mem_cons_of_mem id hi)) hlw h]
          exact copyDir_sets (hst id (List.mem_cons_self id L) es hd) hle hc

/-- C1: `mountLayeredFilesystem(L, T)` first clears and recreates the
target (so the result is independent of the prior contents of the target),
applies the layers of `L` in order by recursive copy, and afterwards
every path defined by a layer of `L` is present with the entry of the
highest-indexed layer of `L` defining it: files follow last-writer-wins,
directories are merged, and no layer removes what an earlier layer
introduced. -/
theorem mountLayeredFilesystem_last_writer_wins
    (store : String → Option Layer) (L : List String) (t t' fs : FS)
    (p : FPath) (e : Entry)
    (hst : ∀ id ∈ L, ∀ es, store id = some es → WfLayer es)
    (h : mountLayeredFilesystem store L t = .ok fs) :
    mountLayeredFilesystem store L t' = .ok fs ∧
    (lastWriter store L p = some e → lookupFS fs p = some e) :=
  ⟨h, fun hdef => applyLayers_lastWriter hst hdef h⟩

/-- Concrete two-layer store: the app layer overwrites `a` and the base
layer alone provides `d/x`. -/
def storeW : String → Option Layer := fun id =>
  if id = "base" then
    some [(["a"], Entry.file "v1"), (["d"], Entry.dir), (["d", "x"], Entry.file "bx")]
  else if id = "app" then some [(["a"], Entry.file "v2")]
  else none

theorem mountLayeredFilesystem_last_writer_wins_witness :
    lookupFS [(["a"], Entry.file "v2"), (["d", "x"], Entry.file "bx"),
      (["d"], Entry.dir), (["a"], Entry.file "v1")] ["a"] = some (Entry.file "v2") := by
  have hst : ∀ id ∈ ["base", "app"], ∀ es, storeW id = some es → WfLayer es := by
    intro id hid es hes
    rcases List.mem_cons.mp hid with h1 | h2
    · subst h1
      have h0 : storeW "base" =
          some [(["a"], Entry.file "v1"), (["d"], Entry.dir),
            (["d", "x"], Entry.file "bx")] := rfl
      rw [h0] at hes
      obtain rfl := Option.some.inj hes
      decide
    · have h1 : id = "app" := List.mem_singleton.mp h2
      subst h1
      have h0 : storeW "app" = some [(["a"], Entry.file "v2")] := rfl
      rw [h0] at hes
      obtain rfl := Option.some.inj hes
      decide
  have h : mountLayeredFilesystem storeW ["base", "app"] [(["junk"], Entry.dir)] =
      .ok [(["a"], Entry.file "v2"), (["d", "x"], Entry.file "bx"),
        (["d"], Entry.dir), (["a"], Entry.file "v1")] := rfl
  exact (mountLayeredFilesystem_last_writer_wins storeW ["base", "app"]
    [(["junk"], Entry.dir)] [] _ ["a"] (Entry.file "v2") hst h).2 (by decide)

/-! ## Container status theorem -/

/-- C2: `getContainerStatus` answers "Running" exactly when the PID file
is readable, `/proc/<pid>` exists for the (trimmed) pid it names, and
signal 0 on that pid does not report no-such-process; in every other
case — in particular no PID file, or a PID file naming a process that
does not exist — it answers "Stopped".  The status is recomputed from
the PID file on every call.  The hypothesis rules out a PID file whose
content does not parse as a number, on which the code aborts the whole
process inside `atoi` instead of answering. -/
theorem getContainerStatus_running_iff (env : StatusEnv)
    (hp : ∀ s, env.readPidFile = some s → (atoiM (trimSpace s)).isSome) :
    (getContainerStatus env = some "Running" ↔
      ∃ s n, env.readPidFile = some s ∧
        env.statNotExist ("/proc/" ++ trimSpace s) = false ∧
        atoiM (trimSpace s) = some n ∧ env.kill0 n ≠ some Errno.esrch) ∧
    (getContainerStatus env = some "Running" ∨
      getContainerStatus env = some "Stopped") := by
  cases hr : env.readPidFile with
  | none =>
    refine ⟨⟨fun h => ?_, fun h => ?_⟩, Or.inr ?_⟩
    · simp [getContainerStatus, hr] at h
    · obtain ⟨s, n, hs, _⟩ := h
      exact Option.noConfusion hs
    · simp [getContainerStatus, hr]
  | some s =>
    have hn := hp s hr
    cases ha : atoiM (trimSpace s) with
    | none => rw [ha] at hn; simp at hn
    | some n =>
      cases hst : env.statNotExist ("/proc/" ++ trimSpace s) with
      | true =>
        have hstop : getContainerStatus env = some "Stopped" := by
          simp [getContainerStatus, hr, hst]
        refine ⟨⟨fun h => ?_, fun h => ?_⟩, Or.inr hstop⟩
        · rw [hstop] at h
          simp at h
        · obtain ⟨s2, n2, hs2, hst2, _⟩ := h
          obtain rfl := Option.some.inj hs2
          rw [hst2] at hst
          exact Bool.noConfusion hst
      | false =>
        cases hk : env.kill0 n with
        | none =>
          have hrun : getContainerStatus env = some "Running" := by
            simp [getContainerStatus, hr, hst, ha, hk]
          refine ⟨⟨fun _ => ⟨s, n, rfl, hst, ha, by rw [hk]; simp⟩,
            fun _ => hrun⟩, Or.inl hrun⟩
        | some er =>
          by_cases he : er = Errno.esrch
          · subst he
            have hstop : getContainerStatus env = some "Stopped" := by
              simp [getContainerStatus, hr, hst, ha, hk]
            refine ⟨⟨fun h => ?_, fun h => ?_⟩, Or.inr hstop⟩
            · rw [hstop] at h
              simp at h
            · obtain ⟨s2, n2, hs2, _, ha2, hk2⟩ := h
              obtain rfl := Option.some.inj hs2
              rw [ha] at ha2
              obtain rfl := Option.some.inj ha2
              exact absurd hk hk2
          · have hrun : getContainerStatus env = some "Running" := by
              simp [getContainerStatus, hr, hst, ha, hk, he]
            refine ⟨⟨fun _ => ⟨s, n, rfl, hst, ha, by rw [hk]; simp [he]⟩,
              fun _ => hrun⟩, Or.inl hrun⟩

theorem getContainerStatus_running_iff_witness :
    getContainerStatus ⟨some "42", fun _ => false, fun _ => none⟩ = some "Running" :=
  ((getContainerStatus_running_iff ⟨some "42", fun _ => false, fun _ => none⟩
      (fun s hs => by cases Option.some.inj hs; decide)).1).mpr
    ⟨"42", 42, rfl, rfl, by decide, by simp⟩

/-! ## Isolation selection, PID recording, exec, cgroups -/

/-- C3: the isolation-tier selection in `run` is a pure function of the
three capability booleans: the full namespace-isolation path is taken
exactly when namespace privilege holds and the engine is not itself
inside a container, and in every other case the non-namespaced fallback
path is taken (cgroup access never influences the choice, matching the
wildcard in the policy table of the spec). -/
theorem selectIsolation_policy :
    ∀ ns ic cg, (selectIsolation ns ic cg = IsolationPath.fullNamespaces ↔
        ns = true ∧ ic = false) ∧
      (selectIsolation ns ic cg = IsolationPath.fullNamespaces ∨
        selectIsolation ns ic cg = IsolationPath.withoutNamespaces) := by
  decide

/-- C5 counterexample: with engine pid 100 and child pid 101, `run`
writes pid 100 — its own — to the PID file, and does so before the
contained process (pid 101) is started, contradicting the claim that
the pid of the child is recorded once the contained process starts. -/
theorem runPidPhase_counterexample :
    runPidPhase ⟨100, 101, true⟩ =
      [RunEvent.writePidFile 100, RunEvent.startChild 101, RunEvent.waitChild 101] ∧
    (100 : Nat) ≠ 101 := by
  decide

/-- C5 (amended): `run` records the own pid of the runtime process (not the
child's) to the per-container PID file before starting the contained
process and before waiting for it to exit; if that write fails, `run`
exits with code 1 without starting the contained process. -/
theorem runPidPhase_spec (env : RunEnv) :
    (env.pidWriteOk = true →
      runPidPhase env = [RunEvent.writePidFile env.selfPid,
        RunEvent.startChild env.childPid, RunEvent.waitChild env.childPid]) ∧
    (env.pidWriteOk = false →
      runPidPhase env = [RunEvent.writePidFile env.selfPid, RunEvent.exitProcess 1]) := by
  constructor <;> intro h <;> simp [runPidPhase, h]

theorem runPidPhase_spec_witness :
    runPidPhase ⟨7, 8, true⟩ =
      [RunEvent.writePidFile 7, RunEvent.startChild 8, RunEvent.waitChild 8] :=
  (runPidPhase_spec ⟨7, 8, true⟩).1 rfl

/-- C6: `execCommand` reads the PID file, verifies `/proc/<pid>`, and
only then runs the command through `nsenter`, attached to the mount
and PID namespaces of the recorded process; whenever the container
directory or PID file is
absent, or the recorded process no longer exists, it fails without
executing the command. -/
theorem execCommand_gating (env : ExecEnv) (command : String) (args : List String) :
    (env.containerDirExists = true →
      ∀ s, env.readPidFile = some s →
        env.statNotExist ("/proc/" ++ trimSpace s) = false →
        execCommand env command args =
          ExecResult.nsenterRun ("/proc/" ++ trimSpace s ++ "/ns/mnt")
            ("/proc/" ++ trimSpace s ++ "/ns/pid") command args) ∧
    ((env.containerDirExists = false ∨ env.readPidFile = none ∨
        (∃ s, env.readPidFile = some s ∧
          env.statNotExist ("/proc/" ++ trimSpace s) = true)) →
      ∃ m, execCommand env command args = ExecResult.fatal m) := by
  constructor
  · intro hc s hs hstat
    simp [execCommand, hc, hs, hstat]
  · intro hbad
    rcases hbad with hc | hn | ⟨s, hs, hstat⟩
    · exact ⟨"container does not exist", by simp [execCommand, hc]⟩
    · cases hc : env.containerDirExists
      · exact ⟨"container does not exist", by simp [execCommand, hc]⟩
      · exact ⟨"failed to read PID file", by simp [execCommand, hc, hn]⟩
    · cases hc : env.containerDirExists
      · exact ⟨"container does not exist", by simp [execCommand, hc]⟩
      · exact ⟨"process does not exist", by simp [execCommand, hc, hs, hstat]⟩

theorem execCommand_gating_witness :
    execCommand ⟨true, some "7", fun _ => false⟩ "ls" ["/"] =
      ExecResult.nsenterRun "/proc/7/ns/mnt" "/proc/7/ns/pid" "ls" ["/"] :=
  (execCommand_gating ⟨true, some "7", fun _ => false⟩ "ls" ["/"]).1 rfl "7" rfl rfl

/-- C8 counterexample: with cgroup access, engine pid 100 and contained
pid 101, the pid written into `cgroup.procs` is "100" — the engine's
own — and not the "101" of the contained process, contradicting the claim
that the new (contained) process is moved into the control group. -/
theorem setupCgroups_counterexample :
    runWithNamespacesTrace true 100 101 "c1" =
      [NsEvent.cg (CgAct.mkdirAllAct (cgroupPathOf "c1")),
       NsEvent.cg (CgAct.writeAct (cgroupPathOf "c1" ++ "/memory.limit_in_bytes")
         "104857600"),
       NsEvent.cg (CgAct.writeAct (cgroupPathOf "c1" ++ "/cgroup.procs") "100"),
       NsEvent.runUserCommand 101] ∧
    ("100" : String) ≠ "101" := by
  refine ⟨rfl, by decide⟩

/-- C8 (amended): under full isolation with cgroup access available,
`runWithNamespaces` creates the memory-limited control group with the
default 100 MiB limit (104857600 bytes) and writes the launching
own pid of the launching process — which the contained process then inherits — into
its procs file, all before the user command executes; when cgroup
access is unavailable, `setupCgroups` performs nothing and returns
success, so resource limiting is skipped silently. -/
theorem setupCgroups_spec (access : Bool) (selfPid childPid : Nat) (cid : String) :
    (access = false →
      setupCgroups access selfPid cid (100 * 1024 * 1024) = .ok [] ∧
      runWithNamespacesTrace access selfPid childPid cid =
        [NsEvent.runUserCommand childPid]) ∧
    (access = true →
      runWithNamespacesTrace access selfPid childPid cid =
        [NsEvent.cg (CgAct.mkdirAllAct (cgroupPathOf cid)),
         NsEvent.cg (CgAct.writeAct (cgroupPathOf cid ++ "/memory.limit_in_bytes")
           "104857600"),
         NsEvent.cg (CgAct.writeAct (cgroupPathOf cid ++ "/cgroup.procs")
           (toString selfPid)),
         NsEvent.runUserCommand childPid]) := by
  constructor <;> intro h <;> subst h
  · exact ⟨rfl, rfl⟩
  · rfl

theorem setupCgroups_spec_witness :
    runWithNamespacesTrace true 7 8 "c" =
      [NsEvent.cg (CgAct.mkdirAllAct (cgroupPathOf "c")),
       NsEvent.cg (CgAct.writeAct (cgroupPathOf "c" ++ "/memory.limit_in_bytes")
         "104857600"),
       NsEvent.cg (CgAct.writeAct (cgroupPathOf "c" ++ "/cgroup.procs") (toString 7)),
       NsEvent.runUserCommand 8] :=
  (setupCgroups_spec true 7 8 "c").2 rfl

/-! ## Resolution and pull theorems -/

/-- C7: `resolve` on a reference whose local image directory already has
a non-empty rootfs returns that rootfs path, leaves the image store
untouched (the rootfs is used as-is), performs no registry call, and a
second call gives the identical result. -/
theorem resolveImage_local_idempotent (reg : RegistryFuncs) (disk : ImagesDisk)
    (name : String) (files : List (String × String))
    (hl : disk name = some files) (hne : files ≠ []) :
    resolveImage reg disk name = ⟨.ok (rootfsPathOf name), disk, []⟩ ∧
    resolveImage reg (resolveImage reg disk name).disk name =
      resolveImage reg disk name := by
  have h1 : resolveImage reg disk name = ⟨.ok (rootfsPathOf name), disk, []⟩ := by
    simp [resolveImage, hl]
  refine ⟨h1, ?_⟩
  rw [h1]
  exact h1

/-- A registry that answers nothing; resolution hitting the local store
never consults it. -/
def regEmpty : RegistryFuncs :=
  ⟨fun _ _ => none, fun _ _ => none⟩

/-- An image store holding a one-file rootfs for "img" only. -/
def diskLocal : ImagesDisk :=
  fun n => if n = "img" then some [("f", "c")] else none

theorem resolveImage_local_idempotent_witness :
    resolveImage regEmpty diskLocal "img" =
      ⟨.ok (rootfsPathOf "img"), diskLocal, []⟩ :=
  (resolveImage_local_idempotent regEmpty diskLocal "img" [("f", "c")]
    (by decide) (by decide)).1

/-- An empty image store. -/
def emptyDisk : ImagesDisk := fun _ => none

/-- A registry whose manifest for `img:latest` lists two layers but
whose second layer blob cannot be fetched. -/
def regHalf : RegistryFuncs where
  fetchManifest := fun r t =>
    if r = "img" ∧ t = "latest" then some ⟨"cfg", ["d1", "d2"]⟩ else none
  fetchLayer := fun r d =>
    if r = "img" ∧ d = "d1" then some ⟨[("f1", "c1")], true⟩ else none

/-- C4: the source violates the requirement that images are never seen half populated.  A
pull of "img" that fails on the second layer blob still leaves a
non-empty rootfs for "img" on disk, and a subsequent `resolve` of "img"
treats it as an existing local image: it returns the path of the incomplete rootfs
with no registry call, although the claim requires the image not to be
resolvable. -/
theorem pull_failure_leaves_resolvable_image :
    (Pull regHalf "img" emptyDisk).result = .error "failed to download layer d2" ∧
    (Pull regHalf "img" emptyDisk).disk "img" = some [("f1", "c1")] ∧
    (resolveImage regHalf (Pull regHalf "img" emptyDisk).disk "img").result =
      .ok (rootfsPathOf "img") ∧
    (resolveImage regHalf (Pull regHalf "img" emptyDisk).disk "img").trace = [] := by
  refine ⟨rfl, rfl, rfl, rfl⟩

/-- A registry for `img:latest` with two fetchable layers. -/
def regTwoLayers : RegistryFuncs where
  fetchManifest := fun r t =>
    if r = "img" ∧ t = "latest" then some ⟨"cfg", ["d1", "d2"]⟩ else none
  fetchLayer := fun r d =>
    if r = "img" ∧ d = "d1" then some ⟨[("f1", "c1")], true⟩
    else if r = "img" ∧ d = "d2" then some ⟨[("f2", "c2")], true⟩
    else none

/-- C9 counterexample: a successful pull of "img", whose manifest lists
layer digests ["d1", "d2"], returns an Image whose `Layers` field is
the constant `["base"]`, not the digest list of the manifest. -/
theorem pull_layers_field_counterexample :
    (Pull regTwoLayers "img" emptyDisk).result =
      .ok ⟨"img", rootfsPathOf "img", ["base"]⟩ ∧
    regTwoLayers.fetchManifest "img" "latest" = some ⟨"cfg", ["d1", "d2"]⟩ ∧
    (["base"] : List String) ≠ ["d1", "d2"] := by
  refine ⟨rfl, rfl, by decide⟩

/-- C9 (amended): an Image produced by a successful pull carries the
requested name and the materialized rootfs path, but its layer id list
is always the constant `["base"]`, regardless of which manifest layer
digests were applied. -/
theorem pull_image_fields (reg : RegistryFuncs) (name : String) (disk : ImagesDisk)
    (img : Image) (h : (Pull reg name disk).result = .ok img) :
    img.Name = name ∧ img.RootFS = rootfsPathOf name ∧ img.Layers = ["base"] := by
  simp only [Pull] at h
  split at h
  · exact absurd h (by simp)
  · split at h
    · exact absurd h (by simp)
    · simp only [Except.ok.injEq] at h
      rw [← h]
      exact ⟨rfl, rfl, rfl⟩

theorem pull_image_fields_witness :
    Image.Name ⟨"img", rootfsPathOf "img", ["base"]⟩ = "img" ∧
    Image.RootFS ⟨"img", rootfsPathOf "img", ["base"]⟩ = rootfsPathOf "img" ∧
    Image.Layers ⟨"img", rootfsPathOf "img", ["base"]⟩ = ["base"] :=
  pull_image_fields regTwoLayers "img" emptyDisk ⟨"img", rootfsPathOf "img", ["base"]⟩ rfl

/-! ## Reference parsing (C10) -/

theorem splitOnChar_no_sep {c : Char} : ∀ {cs : List Char}, c ∉ cs →
    splitOnChar c cs = [cs] := by
  intro cs
  induction cs with
  | nil => intro _; rfl
  | cons x xs ih =>
    intro h
    have hx : ¬x = c := fun hh => h (hh ▸ List.mem_cons_self x xs)
    have hxs : c ∉ xs := fun hh => h (List.mem_cons_of_mem x hh)
    simp only [splitOnChar, if_neg hx, ih hxs]

theorem splitOnChar_append {c : Char} : ∀ {a : List Char} (b : List Char), c ∉ a →
    splitOnChar c (a ++ c :: b) = a :: splitOnChar c b := by
  intro a
  induction a with
  | nil =>
    intro b _
    show splitOnChar c (c :: b) = [] :: splitOnChar c b
    simp [splitOnChar]
  | cons x a' ih =>
    intro b h
    have hx : ¬x = c := fun hh => h (hh ▸ List.mem_cons_self x a')
    have ha' : c ∉ a' := fun hh => h (List.mem_cons_of_mem x hh)
    show splitOnChar c (x :: (a' ++ c :: b)) = (x :: a') :: splitOnChar c b
    simp only [splitOnChar, if_neg hx]
    rw [ih b ha']

theorem parseRepoTag_append (repo tag : String) (h1 : ':' ∉ repo.data)
    (h2 : ':' ∉ tag.data) :
    parseRepoTag (repo ++ ":" ++ tag) = (repo, tag) := by
  unfold parseRepoTag
  have hd : (repo ++ ":" ++ tag).data = repo.data ++ ':' :: tag.data := by
    rw [show (repo ++ ":" ++ tag).data = (repo.data ++ [':']) ++ tag.data from rfl,
      List.append_assoc]
    rfl
  rw [hd, splitOnChar_append tag.data h1, splitOnChar_no_sep h2]

theorem parseRepoTag_noColon (name : String) (h : ':' ∉ name.data) :
    parseRepoTag name = (name, "latest") := by
  unfold parseRepoTag
  rw [splitOnChar_no_sep h]

/-- C10: `Pull` splits the image reference on ":" and defaults the tag
to "latest": for a reference `repo ++ ":" ++ tag` (neither part
containing ":") the manifest request — the first registry call — is for
exactly (repo, tag), and for a reference without ":" it is for
(reference, "latest"). -/
theorem pull_repo_tag (reg : RegistryFuncs) (disk : ImagesDisk)
    (repo tag name : String) :
    (':' ∉ repo.data → ':' ∉ tag.data →
      (Pull reg (repo ++ ":" ++ tag) disk).trace.head? =
        some (RegEvent.fetchManifestEv repo tag)) ∧
    (':' ∉ name.data →
      (Pull reg name disk).trace.head? =
        some (RegEvent.fetchManifestEv name "latest")) := by
  constructor
  · intro h1 h2
    simp only [Pull, parseRepoTag_append repo tag h1 h2]
    split
    · rfl
    · split <;> rfl
  · intro h
    simp only [Pull, parseRepoTag_noColon name h]
    split
    · rfl
    · split <;> rfl

theorem pull_repo_tag_witness :
    (Pull regEmpty ("alpine" ++ ":" ++ "3.19") emptyDisk).trace.head? =
      some (RegEvent.fetchManifestEv "alpine" "3.19") ∧
    (Pull regEmpty "alpine" emptyDisk).trace.head? =
      some (RegEvent.fetchManifestEv "alpine" "latest") :=
  ⟨(pull_repo_tag regEmpty emptyDisk "alpine" "3.19" "alpine").1
      (by decide) (by decide),
    (pull_repo_tag regEmpty emptyDisk "alpine" "3.19" "alpine").2 (by decide)⟩

end BasicDocker
